import Mathlib

/-!
Verification of the vectorscope repository (jtainer/vectorscope).

The repository holds two variants of one C file:
* `src/main.c` (current): a circular buffer `vertexBuffer` of 2048 `Vector2`
  slots with a write `cursor`, a semaphore-guarded audio `callback` that
  stores raw stereo samples, and `DrawVertexBuffer` which walks all slots
  starting at the cursor, applying `pixel = point * drawScale + drawOffset`
  per endpoint.
* `src/unnamed/part_000` (older variant): the same ring, but the callback
  applies the fixed pixel transform `(512,512) + 512 * sample` when storing,
  and `DrawVertexBuffer` draws the stored points directly.

Samples are embedded as exact rationals (the C `float` arithmetic used here
is scaling and addition only); machine indices are `Nat` with explicit
`% VERTEX_BUFFER_SIZE` where the C code takes a modulus.
-/

namespace Vectorscope

/-- Raylib `Vector2`: a pair of coordinates, embedded as exact rationals. -/
structure Vector2 where
  x : ℚ
  y : ℚ
deriving DecidableEq, Repr

/-- The zero vector, i.e. a zero-initialized `Vector2` slot. -/
def zeroV2 : Vector2 := ⟨0, 0⟩

/-- Raymath `Vector2Scale(v, s)`: componentwise scaling. -/
def Vector2Scale (v : Vector2) (s : ℚ) : Vector2 := ⟨v.x * s, v.y * s⟩

/-- Raymath `Vector2Add(a, b)`: componentwise addition. -/
def Vector2Add (a b : Vector2) : Vector2 := ⟨a.x + b.x, a.y + b.y⟩

/-- `VERTEX_BUFFER_SIZE` from both source variants. -/
def VERTEX_BUFFER_SIZE : ℕ := 2048

/-- `WINDOW_WIDTH` from `src/main.c`. -/
def WINDOW_WIDTH : ℕ := 1024

/-- `WINDOW_HEIGHT` from `src/main.c`. -/
def WINDOW_HEIGHT : ℕ := 1024

/-- `WINDOW_SIZE` from the older variant `src/unnamed/part_000`. -/
def WINDOW_SIZE : ℕ := 1024

/-- The shared ring state of `src/main.c`: the global array
`Vector2 vertexBuffer[VERTEX_BUFFER_SIZE]` (its length is the capacity) and
the global `unsigned int cursor`. -/
structure SampleRing where
  vertexBuffer : List Vector2
  cursor : ℕ
deriving DecidableEq, Repr

/-- Capacity of a ring state (the fixed array length). -/
def SampleRing.cap (s : SampleRing) : ℕ := s.vertexBuffer.length

/-- The zero-initialized ring of capacity `N` with cursor `0`, as created by
`Vector2 vertexBuffer[VERTEX_BUFFER_SIZE] = { 0 }; unsigned int cursor = 0;`. -/
def initRing (N : ℕ) : SampleRing := ⟨List.replicate N zeroV2, 0⟩

/-- One append, the loop body of `callback` in `src/main.c`:
`vertexBuffer[cursor] = p; cursor = (cursor + 1) % VERTEX_BUFFER_SIZE;`
(the modulus is the array length). -/
def appendPoint (s : SampleRing) (p : Vector2) : SampleRing :=
  ⟨s.vertexBuffer.set s.cursor p, (s.cursor + 1) % s.vertexBuffer.length⟩

/-- The loop of `callback` in `src/main.c`: starting at frame index `i` with
`k` iterations remaining, append `frameptr[i] = (buffer[2i], buffer[2i+1])`
(the `Vector2*` cast reads two consecutive floats per frame) and continue. -/
def callbackAux (buffer : ℕ → ℚ) : ℕ → ℕ → SampleRing → SampleRing
  | 0, _, s => s
  | k + 1, i, s =>
      callbackAux buffer k (i + 1)
        (appendPoint s ⟨buffer (2 * i), buffer (2 * i + 1)⟩)

/-- `callback(buffer, frames)` of `src/main.c`: run the loop for
`i = 0 .. frames - 1` (the surrounding `sem_wait`/`sem_post` pair is modelled
in the concurrency section below; sequentially the critical section is just
the loop). -/
def callback (buffer : ℕ → ℚ) (frames : ℕ) (s : SampleRing) : SampleRing :=
  callbackAux buffer frames 0 s

/-- Per-endpoint pixel transform of `DrawVertexBuffer` in `src/main.c`:
`v = Vector2Scale(v, drawScale); v = Vector2Add(v, drawOffset);`. -/
def transformPoint (drawOffset : Vector2) (drawScale : ℚ) (p : Vector2) : Vector2 :=
  Vector2Add (Vector2Scale p drawScale) drawOffset

/-- The slot visited at step `i` of the snapshot walk:
`vertexBuffer[(cursor + i) % VERTEX_BUFFER_SIZE]`. -/
def wpt (buf : List Vector2) (c i : ℕ) : Vector2 :=
  buf.getD ((c + i) % buf.length) zeroV2

/-- The full slot sequence one snapshot walk visits, oldest first:
slots `(cursor + i) % N` for `i = 0 .. N - 1`. -/
def walkPoints (s : SampleRing) : List Vector2 :=
  (List.range s.vertexBuffer.length).map (wpt s.vertexBuffer s.cursor)

/-- The drawing loop of `DrawVertexBuffer` (both variants): with `k`
iterations remaining at walk index `i` and running endpoint `b`, emit the
segment from `b` to the transformed slot at index `i`, then advance. `tf` is
the per-endpoint transform (`transformPoint` in `src/main.c`, the identity in
the older variant). -/
def drawSegsAux (tf : Vector2 → Vector2) (buf : List Vector2) (c : ℕ) :
    ℕ → ℕ → Vector2 → List (Vector2 × Vector2)
  | 0, _, _ => []
  | k + 1, i, b =>
      (b, tf (wpt buf c i)) :: drawSegsAux tf buf c k (i + 1) (tf (wpt buf c i))

/-- `DrawVertexBuffer(drawOffset, drawScale, ...)` of `src/main.c` as the list
of line segments it emits: `begin = tf(vertexBuffer[cursor])`, then the loop
`for (i = 1; i < VERTEX_BUFFER_SIZE; i++)` emits one segment per iteration. -/
def DrawVertexBuffer (drawOffset : Vector2) (drawScale : ℚ) (s : SampleRing) :
    List (Vector2 × Vector2) :=
  drawSegsAux (transformPoint drawOffset drawScale) s.vertexBuffer s.cursor
    (s.vertexBuffer.length - 1) 1
    (transformPoint drawOffset drawScale (s.vertexBuffer.getD s.cursor zeroV2))

/-- `DrawVertexBuffer()` of the older variant `src/unnamed/part_000`: the same
walk, but the stored points are drawn directly (no transform). -/
def DrawVertexBufferOld (s : SampleRing) : List (Vector2 × Vector2) :=
  drawSegsAux (fun p => p) s.vertexBuffer s.cursor
    (s.vertexBuffer.length - 1) 1 (s.vertexBuffer.getD s.cursor zeroV2)

/-- Consecutive-pair segments of a walk sequence. -/
def segsOfWalk (l : List Vector2) : List (Vector2 × Vector2) :=
  l.zip l.tail

/-- The stereo frame at index `i` of an interleaved float buffer, as stored by
the `src/main.c` callback (left channel is `x`, right channel is `y`). -/
def stereoFrame (buffer : ℕ → ℚ) (i : ℕ) : Vector2 :=
  ⟨buffer (2 * i), buffer (2 * i + 1)⟩

/-- The list of stereo frames a callback invocation reads. -/
def stereoFrames (buffer : ℕ → ℚ) (frames : ℕ) : List Vector2 :=
  (List.range frames).map (stereoFrame buffer)

/-- `WINDOW_SIZE / 2` of the older variant: C integer division, then used in
float arithmetic (exact here). -/
def halfWindow : ℚ := ((WINDOW_SIZE / 2 : ℕ) : ℚ)

/-- The pixel transform baked into the older variant's callback:
`pos = { WINDOW_SIZE / 2, WINDOW_SIZE / 2 }` then
`pos.x += WINDOW_SIZE / 2 * frameptr[2i]` and likewise for `y`. -/
def oldStoreTf (v : Vector2) : Vector2 :=
  ⟨halfWindow + halfWindow * v.x, halfWindow + halfWindow * v.y⟩

/-- The loop of `callback` in the older variant `src/unnamed/part_000`:
each frame is stored already transformed into pixel space. -/
def callbackOldAux (buffer : ℕ → ℚ) : ℕ → ℕ → SampleRing → SampleRing
  | 0, _, s => s
  | k + 1, i, s =>
      callbackOldAux buffer k (i + 1)
        (appendPoint s ⟨halfWindow + halfWindow * buffer (2 * i),
                        halfWindow + halfWindow * buffer (2 * i + 1)⟩)

/-- `callback(buffer, frames)` of the older variant. -/
def callbackOld (buffer : ℕ → ℚ) (frames : ℕ) (s : SampleRing) : SampleRing :=
  callbackOldAux buffer frames 0 s

/-- Observable startup effects of `main` in `src/main.c` up to the point
where the window would be opened. -/
inductive Ev
  | initAudioDevice
  | closeAudioDevice
  | initWindow
  | printMessage (msg : String)
deriving DecidableEq

/-- Startup prefix of `main` in `src/main.c`: `argc < 2` returns `0` at once;
otherwise `InitAudioDevice()` runs, the music stream is loaded, and on a load
failure (`music.stream.buffer == NULL`) the audio device is closed and `main`
returns `0`. The result is the list of effects performed and `some status`
when the process exits inside this prefix (`none` when it proceeds to the
window and playback loop). `main` contains no `printf`, so no `printMessage`
effect is ever emitted. -/
def mainStartup (argc : ℕ) (loadOk : Bool) : List Ev × Option ℕ :=
  if argc < 2 then ([], some 0)
  else if loadOk then ([Ev.initAudioDevice], none)
  else ([Ev.initAudioDevice, Ev.closeAudioDevice], some 0)

/-- One renderer tick: `DrawVertexBuffer` reads the ring and emits segments;
its body contains no store to `vertexBuffer` or `cursor`, so the embedding
returns the ring state it was given together with the emitted segments. -/
def drawFrame (s : SampleRing) (drawOffset : Vector2) (drawScale : ℚ) :
    SampleRing × List (Vector2 × Vector2) :=
  (s, DrawVertexBuffer drawOffset drawScale s)

/-- Default segment used with `List.getD`. -/
def zeroSeg : Vector2 × Vector2 := (zeroV2, zeroV2)

/-! ### Concurrency model: the semaphore-guarded append batches and walks

Two threads share the ring: the audio thread runs `callback` (acquire the
semaphore, append each frame of the batch, release), and the display thread
runs `DrawVertexBuffer` (acquire, read all `N` slots in walk order, release).
The model is a small-step interleaving semantics at the granularity of the
individual slot writes and reads; the semaphore is a binary lock that only
the `sem_wait` steps test (memory steps never check it, exactly as in the C
code, so mutual exclusion emerges from the program structure alone). -/

/-- The two threads. -/
inductive Tid
  | writer
  | reader
deriving DecidableEq

/-- Audio-thread control state: between callback invocations (with the
remaining batches), or inside one critical section (with the frames of the
current batch not yet appended, and the remaining batches). -/
inductive WStatus
  | widle (batches : List (List Vector2))
  | wcs (cur : List Vector2) (batches : List (List Vector2))

/-- Display-thread control state: before `sem_wait`, inside the walk at the
next read index, or after `sem_post` with the walk finished. -/
inductive RStatus
  | ridle
  | rcs (i : ℕ)
  | rdone

/-- A configuration of the interleaved system: the shared ring, the
semaphore, both control states, and the sequence of slot values the walk has
read so far. -/
structure Conc where
  ring : SampleRing
  lock : Option Tid
  wst : WStatus
  rst : RStatus
  rlog : List Vector2

/-- One micro-step of either thread. `acqW`/`acqR` model `sem_wait` (enabled
only when the semaphore is free), `relW`/`relR` model `sem_post`, `app` is
one iteration of the callback loop, and `readR` is one slot read
`vertexBuffer[(cursor + i) % N]` of the drawing loop. -/
inductive CStep : Conc → Conc → Prop
  | acqW (ring : SampleRing) (b : List Vector2) (bs : List (List Vector2))
      (rst : RStatus) (log : List Vector2) :
      CStep ⟨ring, none, WStatus.widle (b :: bs), rst, log⟩
            ⟨ring, some Tid.writer, WStatus.wcs b bs, rst, log⟩
  | app (ring : SampleRing) (lock : Option Tid) (p : Vector2)
      (ps : List Vector2) (bs : List (List Vector2)) (rst : RStatus)
      (log : List Vector2) :
      CStep ⟨ring, lock, WStatus.wcs (p :: ps) bs, rst, log⟩
            ⟨appendPoint ring p, lock, WStatus.wcs ps bs, rst, log⟩
  | relW (ring : SampleRing) (lock : Option Tid) (bs : List (List Vector2))
      (rst : RStatus) (log : List Vector2) :
      CStep ⟨ring, lock, WStatus.wcs [] bs, rst, log⟩
            ⟨ring, none, WStatus.widle bs, rst, log⟩
  | acqR (ring : SampleRing) (wst : WStatus) (log : List Vector2) :
      CStep ⟨ring, none, wst, RStatus.ridle, log⟩
            ⟨ring, some Tid.reader, wst, RStatus.rcs 0, log⟩
  | readR (ring : SampleRing) (lock : Option Tid) (wst : WStatus) (i : ℕ)
      (log : List Vector2) (h : i < ring.vertexBuffer.length) :
      CStep ⟨ring, lock, wst, RStatus.rcs i, log⟩
            ⟨ring, lock, wst, RStatus.rcs (i + 1),
              log ++ [wpt ring.vertexBuffer ring.cursor i]⟩
  | relR (ring : SampleRing) (lock : Option Tid) (wst : WStatus)
      (log : List Vector2) :
      CStep ⟨ring, lock, wst, RStatus.rcs ring.vertexBuffer.length, log⟩
            ⟨ring, none, wst, RStatus.rdone, log⟩

/-- Finite interleavings of micro-steps. -/
inductive CRun : Conc → Conc → Prop
  | refl (c : Conc) : CRun c c
  | step {a b c : Conc} : CStep a b → CRun b c → CRun a c

/-- The initial configuration: ring `s₀`, semaphore free, the audio thread
about to deliver the batches `Bs`, the display thread about to walk once. -/
def cinit (s₀ : SampleRing) (Bs : List (List Vector2)) : Conc :=
  ⟨s₀, none, WStatus.widle Bs, RStatus.ridle, []⟩

/-- The ring after the first `k` batches have been appended in full. -/
def ringAfter (s₀ : SampleRing) (Bs : List (List Vector2)) (k : ℕ) : SampleRing :=
  List.foldl appendPoint s₀ ((Bs.take k).flatten)

/-- Writer-side invariant: the writer has completed some prefix of `k`
batches; it is either idle with the ring holding exactly those batches, or
inside the critical section (holding the semaphore) partway through batch
`k`. -/
def WInv (s₀ : SampleRing) (Bs : List (List Vector2)) (c : Conc) : Prop :=
  ∃ k, k ≤ Bs.length ∧
    ((c.wst = WStatus.widle (Bs.drop k) ∧ c.lock ≠ some Tid.writer ∧
        c.ring = ringAfter s₀ Bs k) ∨
     (∃ dn rem, c.wst = WStatus.wcs rem (Bs.drop (k + 1)) ∧
        c.lock = some Tid.writer ∧ Bs[k]? = some (dn ++ rem) ∧
        c.ring = List.foldl appendPoint (ringAfter s₀ Bs k) dn))

/-- Reader-side invariant: before the walk the log is empty; inside the walk
the reader holds the semaphore and the log is exactly the prefix of the walk
of the current (frozen) ring; after the walk the log is the complete walk of
the ring as it stood after an integral number of batches. -/
def RInv (s₀ : SampleRing) (Bs : List (List Vector2)) (c : Conc) : Prop :=
  (c.rst = RStatus.ridle ∧ c.lock ≠ some Tid.reader ∧ c.rlog = []) ∨
  (∃ i, c.rst = RStatus.rcs i ∧ c.lock = some Tid.reader ∧
     i ≤ c.ring.vertexBuffer.length ∧ c.rlog = (walkPoints c.ring).take i) ∨
  (c.rst = RStatus.rdone ∧ c.lock ≠ some Tid.reader ∧
     ∃ k, k ≤ Bs.length ∧ c.rlog = walkPoints (ringAfter s₀ Bs k))

/-- The global invariant. -/
def Inv (s₀ : SampleRing) (Bs : List (List Vector2)) (c : Conc) : Prop :=
  WInv s₀ Bs c ∧ RInv s₀ Bs c

/-- Reader progress relative to the ring state `R` as it stood when the walk
acquired the semaphore: either the walk is still in progress — the reader
holds the semaphore, the shared ring still equals `R`, and the log is the
prefix of the walk of `R` read so far — or the walk has finished with the
complete walk of `R` as its log. Together with `WInv` (mutual exclusion) this
is preserved by every step, which is exactly the no-tearing guarantee: the
ring cannot change under a walk in progress. -/
def RSnap (R : SampleRing) (c : Conc) : Prop :=
  (∃ i, c.rst = RStatus.rcs i ∧ c.lock = some Tid.reader ∧ c.ring = R ∧
     i ≤ R.vertexBuffer.length ∧ c.rlog = (walkPoints R).take i) ∨
  (c.rst = RStatus.rdone ∧ c.rlog = walkPoints R)

/-- A batch handed to the audio callback: the interleaved float buffer and
the frame count. -/
def Batch : Type := (ℕ → ℚ) × ℕ

/-- Running the current variant's callback over a sequence of batches. -/
def ingest (batches : List Batch) (s : SampleRing) : SampleRing :=
  batches.foldl (fun st b => callback b.1 b.2 st) s

/-- Running the older variant's callback over a sequence of batches. -/
def ingestOld (batches : List Batch) (s : SampleRing) : SampleRing :=
  batches.foldl (fun st b => callbackOld b.1 b.2 st) s

/-- Total number of frames in a sequence of batches. -/
def totalFrames (batches : List Batch) : ℕ :=
  (batches.map Prod.snd).sum

/-- All stereo frames of a batch sequence, in arrival order. -/
def allFrames (batches : List Batch) : List Vector2 :=
  (batches.map (fun b => stereoFrames b.1 b.2)).flatten

/-- The draw call of `src/main.c`'s main loop at the default window size:
`drawOffset = { windowWidth/2, windowHeight/2 }`, `drawScale =
windowHeight/2` with `windowWidth = WINDOW_WIDTH`, `windowHeight =
WINDOW_HEIGHT`. -/
def drawNewDefault (s : SampleRing) : List (Vector2 × Vector2) :=
  DrawVertexBuffer ⟨((WINDOW_WIDTH / 2 : ℕ) : ℚ), ((WINDOW_HEIGHT / 2 : ℕ) : ℚ)⟩
    ((WINDOW_HEIGHT / 2 : ℕ) : ℚ) s

/-! ### Basic lemmas about append and the walk -/

theorem appendPoint_length (s : SampleRing) (p : Vector2) :
    (appendPoint s p).vertexBuffer.length = s.vertexBuffer.length := by
  simp [appendPoint]

theorem appendPoint_cursor_lt (s : SampleRing) (p : Vector2)
    (h : s.cursor < s.vertexBuffer.length) :
    (appendPoint s p).cursor < (appendPoint s p).vertexBuffer.length := by
  simp only [appendPoint, List.length_set]
  exact Nat.mod_lt _ (Nat.pos_of_ne_zero (by omega))

theorem walkPoints_length (s : SampleRing) :
    (walkPoints s).length = s.vertexBuffer.length := by
  simp [walkPoints]

theorem initRing_cursor_lt (N : ℕ) (h : 0 < N) :
    (initRing N).cursor < (initRing N).vertexBuffer.length := by
  simpa [initRing] using h

theorem foldl_appendPoint_length (ps : List Vector2) (s : SampleRing) :
    (List.foldl appendPoint s ps).vertexBuffer.length = s.vertexBuffer.length := by
  induction ps generalizing s with
  | nil => rfl
  | cons p ps ih => rw [List.foldl_cons, ih, appendPoint_length]

theorem foldl_appendPoint_cursor_lt (ps : List Vector2) (s : SampleRing)
    (h : s.cursor < s.vertexBuffer.length) :
    (List.foldl appendPoint s ps).cursor < (List.foldl appendPoint s ps).vertexBuffer.length := by
  induction ps generalizing s with
  | nil => exact h
  | cons p ps ih => exact ih _ (appendPoint_cursor_lt s p h)

theorem getD_replicate_self (n i : ℕ) (a : Vector2) :
    (List.replicate n a).getD i a = a := by
  rcases Nat.lt_or_ge i n with h | h
  · rw [List.getD_eq_getElem _ _ (by simpa using h)]
    exact List.getElem_replicate ..
  · exact List.getD_eq_default _ _ (by simpa using h)

theorem walkPoints_getElem (s : SampleRing) (i : ℕ)
    (h : i < (walkPoints s).length) :
    (walkPoints s)[i] = wpt s.vertexBuffer s.cursor i := by
  simp [walkPoints]

theorem mod_shift_ne (c i N : ℕ) (hc : c < N) (hi : i < N - 1) :
    (c + 1 + i) % N ≠ c := by
  rcases Nat.lt_or_ge (c + 1 + i) N with h | h
  · rw [Nat.mod_eq_of_lt h]; omega
  · rw [Nat.mod_eq_sub_mod h, Nat.mod_eq_of_lt (by omega)]; omega

theorem mod_shift_last (c N : ℕ) (hc : c < N) :
    (c + 1 + (N - 1)) % N = c := by
  have h : c + 1 + (N - 1) = c + N := by omega
  rw [h, Nat.add_mod_right, Nat.mod_eq_of_lt hc]

/-- One append rotates the snapshot walk: the oldest point is dropped from the
front and the appended point appears at the back. -/
theorem walkPoints_appendPoint (s : SampleRing) (p : Vector2)
    (h : s.cursor < s.vertexBuffer.length) :
    walkPoints (appendPoint s p) = (walkPoints s).tail ++ [p] := by
  have hN : 0 < s.vertexBuffer.length := by omega
  apply List.ext_getElem
  · simp [walkPoints_length, appendPoint, walkPoints]
    omega
  · intro i h₁ h₂
    have hlen : (walkPoints (appendPoint s p)).length = s.vertexBuffer.length := by
      rw [walkPoints_length, appendPoint_length]
    have hi : i < s.vertexBuffer.length := by omega
    rw [walkPoints_getElem (appendPoint s p) i h₁]
    have hset : (appendPoint s p).vertexBuffer.length = s.vertexBuffer.length :=
      appendPoint_length s p
    have hmod : ((s.cursor + 1) % s.vertexBuffer.length + i) % s.vertexBuffer.length
        = (s.cursor + 1 + i) % s.vertexBuffer.length := Nat.mod_add_mod ..
    rcases Nat.lt_or_ge i (s.vertexBuffer.length - 1) with hlt | hge
    · -- walk index below the last one: an untouched slot, equal to walk index i+1 before
      have hne : (s.cursor + 1 + i) % s.vertexBuffer.length ≠ s.cursor :=
        mod_shift_ne _ _ _ h hlt
      have hidx : (s.cursor + 1 + i) % s.vertexBuffer.length < s.vertexBuffer.length :=
        Nat.mod_lt _ hN
      have hL : wpt (appendPoint s p).vertexBuffer (appendPoint s p).cursor i
          = wpt s.vertexBuffer s.cursor (i + 1) := by
        simp only [wpt, appendPoint, List.length_set, hmod]
        rw [List.getD_eq_getElem _ _ (by simpa using hidx),
            List.getD_eq_getElem _ _
              (by simpa using (show (s.cursor + (i + 1)) % s.vertexBuffer.length
                    < s.vertexBuffer.length from Nat.mod_lt _ hN))]
        have harg : s.cursor + (i + 1) = s.cursor + 1 + i := by omega
        rw [harg]
        exact List.getElem_set_ne (fun hcc => hne hcc.symm) _
      rw [hL]
      have htl : i < (walkPoints s).tail.length := by
        simp [walkPoints_length]; omega
      rw [List.getElem_append_left htl]
      rw [List.getElem_tail]
      exact (walkPoints_getElem s (i + 1)
        (by rw [walkPoints_length]; omega)).symm ▸ rfl
    · -- the last walk index: the freshly written slot
      have hieq : i = s.vertexBuffer.length - 1 := by omega
      have hL : wpt (appendPoint s p).vertexBuffer (appendPoint s p).cursor i = p := by
        simp only [wpt, appendPoint, List.length_set, hieq, Nat.mod_add_mod]
        rw [mod_shift_last _ _ h]
        rw [List.getD_eq_getElem _ _ (by simpa using h)]
        exact List.getElem_set_self (by simpa using h)
      rw [hL]
      have htl : (walkPoints s).tail.length = s.vertexBuffer.length - 1 := by
        simp [walkPoints_length]
      rw [List.getElem_append_right (by omega)]
      simp [htl, hieq]

/-- Folding a list of appends rotates the walk by the number of appended
points: the walk of the result is the old walk extended by the appended
points, with the oldest points dropped. -/
theorem walkPoints_foldl (ps : List Vector2) (s : SampleRing)
    (h : s.cursor < s.vertexBuffer.length) :
    walkPoints (List.foldl appendPoint s ps) = (walkPoints s ++ ps).drop ps.length := by
  induction ps generalizing s with
  | nil => simp
  | cons p ps ih =>
    rw [List.foldl_cons, ih _ (appendPoint_cursor_lt s p h),
        walkPoints_appendPoint s p h]
    have hne : walkPoints s ≠ [] := by
      intro hc
      have := walkPoints_length s
      rw [hc] at this
      simp at this
      omega
    obtain ⟨a, t, hat⟩ := List.exists_cons_of_ne_nil hne
    rw [hat]
    simp [List.drop_succ_cons, List.append_assoc]

/-- The walk of the zero-initialized ring is all zeros. -/
theorem walkPoints_initRing (N : ℕ) :
    walkPoints (initRing N) = List.replicate N zeroV2 := by
  apply List.ext_getElem
  · simp [walkPoints_length, initRing]
  · intro i h₁ h₂
    have hi : i < N := by simpa [walkPoints_length, initRing] using h₁
    rw [walkPoints_getElem (initRing N) i h₁]
    simp only [initRing, wpt]
    rw [getD_replicate_self]
    exact (List.getElem_replicate ..).symm ▸ rfl

/-! ### Characterizing the drawing loop as consecutive pairs of the walk -/

theorem segsOfWalk_cons (a b : Vector2) (l : List Vector2) :
    segsOfWalk (a :: b :: l) = (a, b) :: segsOfWalk (b :: l) := rfl

theorem segsOfWalk_length (l : List Vector2) :
    (segsOfWalk l).length = l.length - 1 := by
  simp [segsOfWalk]

theorem segsOfWalk_getElem (l : List Vector2) (i : ℕ)
    (hs : i < (segsOfWalk l).length) (h2 : i < l.length) (h3 : i + 1 < l.length) :
    (segsOfWalk l)[i] = (l[i], l[i + 1]) := by
  simp only [segsOfWalk]
  rw [List.getElem_zip, List.getElem_tail]

theorem drawSegsAux_eq_zip (tf : Vector2 → Vector2) (buf : List Vector2) (c : ℕ) :
    ∀ (k i : ℕ) (b : Vector2),
      drawSegsAux tf buf c k i b =
        segsOfWalk (b :: (List.range k).map (fun j => tf (wpt buf c (i + j)))) := by
  intro k
  induction k with
  | zero => intro i b; simp [drawSegsAux, segsOfWalk]
  | succ k ih =>
    intro i b
    rw [drawSegsAux, ih (i + 1) (tf (wpt buf c i))]
    rw [List.range_succ_eq_map, List.map_cons, List.map_map]
    have hfe : ((fun j => tf (wpt buf c (i + j))) ∘ Nat.succ)
        = fun j => tf (wpt buf c (i + 1 + j)) := by
      funext j
      have : i + Nat.succ j = i + 1 + j := by omega
      simp [Function.comp, this]
    rw [hfe]
    have h0 : i + 0 = i := by omega
    rw [h0, segsOfWalk_cons]

/-- The body of `DrawVertexBuffer` with per-endpoint transform `tf` emits
exactly the consecutive pairs of the transformed snapshot walk. -/
theorem drawSegs_eq_walk (tf : Vector2 → Vector2) (s : SampleRing)
    (h : s.cursor < s.vertexBuffer.length) :
    drawSegsAux tf s.vertexBuffer s.cursor (s.vertexBuffer.length - 1) 1
        (tf (s.vertexBuffer.getD s.cursor zeroV2)) =
      segsOfWalk ((walkPoints s).map tf) := by
  rw [drawSegsAux_eq_zip]
  congr 1
  have hN : 0 < s.vertexBuffer.length := by omega
  obtain ⟨M, hM⟩ : ∃ M, s.vertexBuffer.length = M + 1 := ⟨s.vertexBuffer.length - 1, by omega⟩
  rw [walkPoints, hM]
  rw [List.range_succ_eq_map, List.map_cons, List.map_cons, List.map_map, List.map_map]
  congr 1
  · simp only [wpt]
    rw [Nat.add_zero, Nat.mod_eq_of_lt h]
  · have : M + 1 - 1 = M := by omega
    rw [this]
    apply List.map_congr_left
    intro j hj
    simp [Function.comp]
    rw [Nat.add_comm 1 j]

/-- `DrawVertexBuffer(drawOffset, drawScale, ...)` of `src/main.c` emits
exactly the consecutive pairs of the transformed snapshot walk. -/
theorem DrawVertexBuffer_eq_walk (drawOffset : Vector2) (drawScale : ℚ)
    (s : SampleRing) (h : s.cursor < s.vertexBuffer.length) :
    DrawVertexBuffer drawOffset drawScale s =
      segsOfWalk ((walkPoints s).map (transformPoint drawOffset drawScale)) := by
  rw [DrawVertexBuffer]
  exact drawSegs_eq_walk _ s h

/-- The older variant's `DrawVertexBuffer()` emits exactly the consecutive
pairs of the raw snapshot walk. -/
theorem DrawVertexBufferOld_eq_walk (s : SampleRing)
    (h : s.cursor < s.vertexBuffer.length) :
    DrawVertexBufferOld s = segsOfWalk (walkPoints s) := by
  rw [DrawVertexBufferOld]
  have := drawSegs_eq_walk (fun p => p) s h
  rwa [List.map_id'] at this

/-! ### The ingest callback as a fold of appends -/

theorem callbackAux_eq_foldl (buffer : ℕ → ℚ) :
    ∀ (k i : ℕ) (s : SampleRing),
      callbackAux buffer k i s =
        List.foldl appendPoint s
          ((List.range k).map (fun j => stereoFrame buffer (i + j))) := by
  intro k
  induction k with
  | zero => intro i s; simp [callbackAux]
  | succ k ih =>
    intro i s
    rw [callbackAux, ih (i + 1)]
    rw [List.range_succ_eq_map, List.map_cons, List.map_map, List.foldl_cons]
    have hfe : ((fun j => stereoFrame buffer (i + j)) ∘ Nat.succ)
        = fun j => stereoFrame buffer (i + 1 + j) := by
      funext j
      have h1 : i + Nat.succ j = i + 1 + j := by omega
      simp [Function.comp, h1]
    rw [hfe]
    rfl

/-! ### The older source variant: callback fold -/

theorem callbackOldAux_eq_foldl (buffer : ℕ → ℚ) :
    ∀ (k i : ℕ) (s : SampleRing),
      callbackOldAux buffer k i s =
        List.foldl appendPoint s
          ((List.range k).map (fun j => oldStoreTf (stereoFrame buffer (i + j)))) := by
  intro k
  induction k with
  | zero => intro i s; simp [callbackOldAux]
  | succ k ih =>
    intro i s
    rw [callbackOldAux, ih (i + 1)]
    rw [List.range_succ_eq_map, List.map_cons, List.map_map, List.foldl_cons]
    have hfe : ((fun j => oldStoreTf (stereoFrame buffer (i + j))) ∘ Nat.succ)
        = fun j => oldStoreTf (stereoFrame buffer (i + 1 + j)) := by
      funext j
      have h1 : i + Nat.succ j = i + 1 + j := by omega
      simp [Function.comp, h1]
    rw [hfe]
    rfl

/-! ### Concurrency model: preservation of the invariant

Definitions of the model live above with the other definitions; the comment
there explains the modelling choices. -/

theorem inv_cinit (s₀ : SampleRing) (Bs : List (List Vector2)) :
    Inv s₀ Bs (cinit s₀ Bs) := by
  constructor
  · exact ⟨0, Nat.zero_le _, Or.inl ⟨by simp [cinit], by simp [cinit], rfl⟩⟩
  · exact Or.inl ⟨rfl, by simp [cinit], rfl⟩

theorem inv_step (s₀ : SampleRing) (Bs : List (List Vector2)) {c c' : Conc}
    (hstep : CStep c c') (hI : Inv s₀ Bs c) : Inv s₀ Bs c' := by
  obtain ⟨hW, hR⟩ := hI
  cases hstep with
  | acqW ring b bs rst log =>
    obtain ⟨k, hk, hcase⟩ := hW
    rcases hcase with ⟨hwst, hlock, hring⟩ | ⟨dn, rem, hwst, hlock, hget, hring⟩
    · injection hwst with hbk
      have hklt : k < Bs.length := by
        by_contra hge
        rw [List.drop_eq_nil_of_le (by omega)] at hbk
        simp at hbk
      have hget : Bs[k]? = some b := by
        have h0 : (Bs.drop k)[0]? = some b := by rw [← hbk]; simp
        rwa [List.getElem?_drop, Nat.add_zero] at h0
      have hdrop1 : Bs.drop (k + 1) = bs := by
        have hdd : (Bs.drop k).drop 1 = Bs.drop (k + 1) := List.drop_drop ..
        rw [← hdd, ← hbk]
        rfl
      refine ⟨⟨k, hk, Or.inr ⟨[], b, ?_, rfl, ?_, ?_⟩⟩, ?_⟩
      · rw [hdrop1]
      · simpa using hget
      · simpa using hring
      · rcases hR with ⟨hrst, hl, hlog⟩ | ⟨i, hrst, hlock', hi, hlog⟩ |
            ⟨hrst, hl, hfin⟩
        · exact Or.inl ⟨hrst, by simp, hlog⟩
        · exact absurd hlock' (by simp)
        · exact Or.inr (Or.inr ⟨hrst, by simp, hfin⟩)
    · simp at hwst
  | app ring lock p ps bs rst log =>
    obtain ⟨k, hk, hcase⟩ := hW
    rcases hcase with ⟨hwst, hlock, hring⟩ | ⟨dn, rem, hwst, hlock, hget, hring⟩
    · simp at hwst
    · injection hwst with h1 h2
      subst h1
      refine ⟨⟨k, hk, Or.inr ⟨dn ++ [p], ps, ?_, hlock, ?_, ?_⟩⟩, ?_⟩
      · rw [h2]
      · rw [hget]
        simp [List.append_assoc]
      · dsimp only at hring ⊢
        rw [hring, List.foldl_concat]
      · rcases hR with ⟨hrst, hl, hlog⟩ | ⟨i, hrst, hlock', hi, hlog⟩ |
            ⟨hrst, hl, hfin⟩
        · exact Or.inl ⟨hrst, by rw [hlock]; simp, hlog⟩
        · rw [hlock] at hlock'
          exact absurd hlock' (by simp)
        · exact Or.inr (Or.inr ⟨hrst, by rw [hlock]; simp, hfin⟩)
  | relW ring lock bs rst log =>
    obtain ⟨k, hk, hcase⟩ := hW
    rcases hcase with ⟨hwst, hlock, hring⟩ | ⟨dn, rem, hwst, hlock, hget, hring⟩
    · simp at hwst
    · injection hwst with h1 h2
      have hrem : rem = [] := h1.symm
      subst hrem
      simp only [List.append_nil] at hget
      have hklt : k < Bs.length := by
        by_contra hge
        rw [List.getElem?_eq_none (by omega)] at hget
        exact Option.noConfusion hget
      have hring' : ring = ringAfter s₀ Bs (k + 1) := by
        dsimp only at hring
        rw [hring]
        show List.foldl appendPoint (ringAfter s₀ Bs k) dn = ringAfter s₀ Bs (k + 1)
        rw [ringAfter, ringAfter, List.take_succ, hget]
        simp [List.flatten_append, List.foldl_append]
      refine ⟨⟨k + 1, by omega, Or.inl ⟨?_, by simp, hring'⟩⟩, ?_⟩
      · rw [h2]
      · rcases hR with ⟨hrst, hl, hlog⟩ | ⟨i, hrst, hlock', hi, hlog⟩ |
            ⟨hrst, hl, hfin⟩
        · exact Or.inl ⟨hrst, by simp, hlog⟩
        · rw [hlock] at hlock'
          exact absurd hlock' (by simp)
        · exact Or.inr (Or.inr ⟨hrst, by simp, hfin⟩)
  | acqR ring wst log =>
    rcases hR with ⟨hrst, hl, hlog⟩ | ⟨i, hrst, hlock', hi, hlog⟩ |
        ⟨hrst, hl, hfin⟩
    · constructor
      · obtain ⟨k, hk, hcase⟩ := hW
        rcases hcase with ⟨hwst, hl2, hring⟩ | ⟨dn, rem, hwst, hlock, hget, hring⟩
        · exact ⟨k, hk, Or.inl ⟨hwst, by simp, hring⟩⟩
        · exact absurd hlock (by simp)
      · refine Or.inr (Or.inl ⟨0, rfl, rfl, Nat.zero_le _, ?_⟩)
        rw [hlog]
        rfl
    · exact absurd hlock' (by simp)
    · simp at hrst
  | readR ring lock wst i log h =>
    rcases hR with ⟨hrst, hl, hlog⟩ | ⟨j, hrst, hlock', hj, hlog⟩ |
        ⟨hrst, hl, hfin⟩
    · simp at hrst
    · injection hrst with hij
      subst hij
      constructor
      · obtain ⟨k, hk, hcase⟩ := hW
        rcases hcase with ⟨hwst, hl2, hring⟩ | ⟨dn, rem, hwst, hlock2, hget, hring⟩
        · exact ⟨k, hk, Or.inl ⟨hwst, hl2, hring⟩⟩
        · exact ⟨k, hk, Or.inr ⟨dn, rem, hwst, hlock2, hget, hring⟩⟩
      · dsimp only at hj hlog
        refine Or.inr (Or.inl ⟨i + 1, rfl, hlock', by dsimp only; omega, ?_⟩)
        dsimp only
        rw [hlog, List.take_succ]
        congr 1
        have hw : i < (walkPoints ring).length := by
          rw [walkPoints_length]
          exact h
        rw [List.getElem?_eq_getElem hw]
        rw [walkPoints_getElem ring i hw]
        rfl
    · simp at hrst
  | relR ring lock wst log =>
    rcases hR with ⟨hrst, hl, hlog⟩ | ⟨j, hrst, hlock', hj, hlog⟩ |
        ⟨hrst, hl, hfin⟩
    · simp at hrst
    · injection hrst with hij
      obtain ⟨k, hk, hcase⟩ := hW
      rcases hcase with ⟨hwst, hl2, hring⟩ | ⟨dn, rem, hwst, hlock2, hget, hring⟩
      · refine ⟨⟨k, hk, Or.inl ⟨hwst, by simp, hring⟩⟩, ?_⟩
        refine Or.inr (Or.inr ⟨rfl, by simp, k, hk, ?_⟩)
        dsimp only at hlog hring ⊢
        rw [hlog, ← hij, ← walkPoints_length ring, List.take_length, hring]
      · rw [hlock2] at hlock'
        exact absurd hlock' (by simp)
    · simp at hrst

theorem inv_run (s₀ : SampleRing) (Bs : List (List Vector2)) {a b : Conc}
    (hrun : CRun a b) (hI : Inv s₀ Bs a) : Inv s₀ Bs b := by
  induction hrun with
  | refl c => exact hI
  | step hs hr ih => exact ih (inv_step s₀ Bs hs hI)

theorem rdone_step {c c' : Conc} (hstep : CStep c c')
    (hd : c.rst = RStatus.rdone) :
    c'.rst = RStatus.rdone ∧ c'.rlog = c.rlog := by
  cases hstep with
  | acqW ring b bs rst log => exact ⟨hd, rfl⟩
  | app ring lock p ps bs rst log => exact ⟨hd, rfl⟩
  | relW ring lock bs rst log => exact ⟨hd, rfl⟩
  | acqR ring wst log => simp at hd
  | readR ring lock wst i log h => simp at hd
  | relR ring lock wst log => simp at hd

theorem rdone_run {c c' : Conc} (hrun : CRun c c')
    (hd : c.rst = RStatus.rdone) :
    c'.rst = RStatus.rdone ∧ c'.rlog = c.rlog := by
  induction hrun with
  | refl a => exact ⟨hd, rfl⟩
  | step hs hr ih =>
    obtain ⟨h1, h2⟩ := rdone_step hs hd
    obtain ⟨h3, h4⟩ := ih h1
    exact ⟨h3, by rw [h4, h2]⟩

theorem rsnap_step (s₀ : SampleRing) (Bs : List (List Vector2)) (R : SampleRing)
    {c c' : Conc} (hstep : CStep c c') (hW : WInv s₀ Bs c) (hS : RSnap R c) :
    RSnap R c' := by
  cases hstep with
  | acqW ring b bs rst log =>
    rcases hS with ⟨i, hrst, hlock, hring, hi, hlog⟩ | ⟨hrst, hlog⟩
    · simp at hlock
    · exact Or.inr ⟨hrst, hlog⟩
  | app ring lock p ps bs rst log =>
    rcases hS with ⟨i, hrst, hlock, hring, hi, hlog⟩ | ⟨hrst, hlog⟩
    · obtain ⟨k, hk, hcase⟩ := hW
      rcases hcase with ⟨hwst, hl2, hring2⟩ | ⟨dn, rem, hwst, hlock2, hget, hring2⟩
      · simp at hwst
      · dsimp only at hlock hlock2
        rw [hlock2] at hlock
        simp at hlock
    · exact Or.inr ⟨hrst, hlog⟩
  | relW ring lock bs rst log =>
    rcases hS with ⟨i, hrst, hlock, hring, hi, hlog⟩ | ⟨hrst, hlog⟩
    · obtain ⟨k, hk, hcase⟩ := hW
      rcases hcase with ⟨hwst, hl2, hring2⟩ | ⟨dn, rem, hwst, hlock2, hget, hring2⟩
      · simp at hwst
      · dsimp only at hlock hlock2
        rw [hlock2] at hlock
        simp at hlock
    · exact Or.inr ⟨hrst, hlog⟩
  | acqR ring wst log =>
    rcases hS with ⟨i, hrst, hlock, hring, hi, hlog⟩ | ⟨hrst, hlog⟩
    · simp at hrst
    · simp at hrst
  | readR ring lock wst i log h =>
    rcases hS with ⟨j, hrst, hlock, hring, hj, hlog⟩ | ⟨hrst, hlog⟩
    · injection hrst with hij
      subst hij
      dsimp only at hring hlog
      subst hring
      refine Or.inl ⟨i + 1, rfl, hlock, rfl, by omega, ?_⟩
      dsimp only
      rw [hlog, List.take_succ]
      congr 1
      have hw : i < (walkPoints ring).length := by
        rw [walkPoints_length]
        exact h
      rw [List.getElem?_eq_getElem hw]
      rw [walkPoints_getElem ring i hw]
      rfl
    · simp at hrst
  | relR ring lock wst log =>
    rcases hS with ⟨j, hrst, hlock, hring, hj, hlog⟩ | ⟨hrst, hlog⟩
    · injection hrst with hij
      dsimp only at hring hlog
      subst hring
      refine Or.inr ⟨rfl, ?_⟩
      dsimp only
      rw [hlog, ← hij, ← walkPoints_length ring, List.take_length]
    · simp at hrst

theorem rsnap_run (s₀ : SampleRing) (Bs : List (List Vector2)) (R : SampleRing)
    {a b : Conc} (hrun : CRun a b) (hI : Inv s₀ Bs a) (hS : RSnap R a) :
    RSnap R b := by
  induction hrun with
  | refl c => exact hS
  | step hs hr ih =>
    exact ih (inv_step s₀ Bs hs hI) (rsnap_step s₀ Bs R hs hI.1 hS)

/-! ### The two ingest-and-draw pipelines as folds -/

theorem callback_eq_foldl (buffer : ℕ → ℚ) (frames : ℕ) (s : SampleRing) :
    callback buffer frames s =
      List.foldl appendPoint s (stereoFrames buffer frames) := by
  rw [callback, callbackAux_eq_foldl, stereoFrames]
  congr 1
  apply List.map_congr_left
  intro j hj
  rw [Nat.zero_add]

theorem callbackOld_eq_foldl (buffer : ℕ → ℚ) (frames : ℕ) (s : SampleRing) :
    callbackOld buffer frames s =
      List.foldl appendPoint s ((stereoFrames buffer frames).map oldStoreTf) := by
  rw [callbackOld, callbackOldAux_eq_foldl, stereoFrames, List.map_map]
  congr 1
  apply List.map_congr_left
  intro j hj
  simp [Function.comp]

theorem ingest_eq_foldl (batches : List Batch) (s : SampleRing) :
    ingest batches s = List.foldl appendPoint s (allFrames batches) := by
  induction batches generalizing s with
  | nil => rfl
  | cons b bs ih =>
    rw [ingest, List.foldl_cons, ← ingest, ih, callback_eq_foldl]
    simp only [allFrames, List.map_cons, List.flatten_cons, List.foldl_append]

theorem ingestOld_eq_foldl (batches : List Batch) (s : SampleRing) :
    ingestOld batches s =
      List.foldl appendPoint s ((allFrames batches).map oldStoreTf) := by
  induction batches generalizing s with
  | nil => rfl
  | cons b bs ih =>
    rw [ingestOld, List.foldl_cons, ← ingestOld, ih, callbackOld_eq_foldl]
    simp only [allFrames, List.map_cons, List.flatten_cons, List.map_append,
      List.foldl_append]

theorem allFrames_length (batches : List Batch) :
    (allFrames batches).length = totalFrames batches := by
  rw [allFrames, List.length_flatten, totalFrames, List.map_map]
  congr 1
  apply List.map_congr_left
  intro b hb
  simp [Function.comp, stereoFrames]

/-- The two per-sample pixel transforms agree: storing
`(512 + 512 l, 512 + 512 r)` (older variant) equals storing `(l, r)` and
drawing with `drawScale = 512`, `drawOffset = (512, 512)` (current variant
at the default 1024 x 1024 window). -/
theorem oldStoreTf_eq_transform (v : Vector2) :
    oldStoreTf v =
      transformPoint ⟨((WINDOW_WIDTH / 2 : ℕ) : ℚ), ((WINDOW_HEIGHT / 2 : ℕ) : ℚ)⟩
        ((WINDOW_HEIGHT / 2 : ℕ) : ℚ) v := by
  simp only [oldStoreTf, transformPoint, Vector2Add, Vector2Scale, halfWindow,
    WINDOW_SIZE, WINDOW_WIDTH, WINDOW_HEIGHT, Vector2.mk.injEq]
  constructor <;> ring

/-! ### Claim theorems -/

/-- C1: every append batch and every snapshot walk execute entirely inside
the single binary lock. In every interleaved execution of the two threads
that contains the walk's lock acquisition (the step taking the reader from
`ridle` to `rcs 0`) and later completes the walk, the completed walk's read
log is exactly the walk of the ring as it stood at the acquisition config
`ca` — so no read mixes pre- and post-overwrite values for any slot and the
cursor is taken from that single frozen state — and at `ca` the writer is
idle with precisely the batches `Bs.take k` applied, i.e. the snapshot
contains exactly the appends completed strictly before the acquisition, all
fully visible; and every step taken after the walk finished leaves the log
unchanged, so appends starting strictly after the walk are fully invisible
to it. -/
theorem lock_atomic_snapshot (s₀ : SampleRing) (Bs : List (List Vector2))
    {ca cb c : Conc}
    (hrun1 : CRun (cinit s₀ Bs) ca) (hacq : CStep ca cb)
    (hpre : ca.rst = RStatus.ridle) (hpost : cb.rst = RStatus.rcs 0)
    (hrun2 : CRun cb c) (hdone : c.rst = RStatus.rdone) :
    c.rlog = walkPoints ca.ring ∧
    (∃ k, k ≤ Bs.length ∧ ca.wst = WStatus.widle (Bs.drop k) ∧
      ca.ring = ringAfter s₀ Bs k) ∧
    (∀ c', CRun c c' → c'.rlog = c.rlog) := by
  have hIca := inv_run s₀ Bs hrun1 (inv_cinit s₀ Bs)
  cases hacq with
  | acqW ring b bs rst log =>
    dsimp only at hpre hpost
    rw [hpre] at hpost
    simp at hpost
  | app ring lock p ps bs rst log =>
    dsimp only at hpre hpost
    rw [hpre] at hpost
    simp at hpost
  | relW ring lock bs rst log =>
    dsimp only at hpre hpost
    rw [hpre] at hpost
    simp at hpost
  | acqR ring wst log =>
    have hIcb := inv_step s₀ Bs (CStep.acqR ring wst log) hIca
    obtain ⟨hW, hR⟩ := hIca
    obtain ⟨k, hk, hcase⟩ := hW
    rcases hcase with ⟨hwst, hl2, hring⟩ | ⟨dn, rem, hwst, hlock2, hget, hring2⟩
    · rcases hR with ⟨hrst, hl, hlog⟩ | ⟨i, hrst, hlock3, hi, hlog⟩ |
          ⟨hrst, hl, hfin⟩
      · dsimp only at hwst hring hlog
        have hScb : RSnap ring
            ⟨ring, some Tid.reader, wst, RStatus.rcs 0, log⟩ := by
          refine Or.inl ⟨0, rfl, rfl, rfl, Nat.zero_le _, ?_⟩
          dsimp only
          rw [hlog]
          rfl
        have hSc := rsnap_run s₀ Bs ring hrun2 hIcb hScb
        rcases hSc with ⟨i, hrst2, hx1, hx2, hx3, hx4⟩ | ⟨hrst2, hlog2⟩
        · rw [hdone] at hrst2
          simp at hrst2
        · refine ⟨hlog2, ⟨k, hk, hwst, hring⟩, ?_⟩
          exact fun c' hr' => (rdone_run hr' hdone).2
      · simp at hrst
      · simp at hrst
    · simp at hlock2
  | readR ring lock wst i log h =>
    simp at hpre
  | relR ring lock wst log =>
    simp at hpre

/-- C1 witness: a concrete run of the reader over a capacity-1 ring with no
writer batches — the acquisition step, one slot read, and the release. -/
theorem lock_atomic_snapshot_witness :
    CRun (cinit (initRing 1) []) (cinit (initRing 1) []) ∧
    CStep (cinit (initRing 1) [])
      ⟨initRing 1, some Tid.reader, WStatus.widle [], RStatus.rcs 0, []⟩ ∧
    (cinit (initRing 1) []).rst = RStatus.ridle ∧
    (⟨initRing 1, some Tid.reader, WStatus.widle [], RStatus.rcs 0,
        []⟩ : Conc).rst = RStatus.rcs 0 ∧
    CRun (⟨initRing 1, some Tid.reader, WStatus.widle [], RStatus.rcs 0,
        []⟩ : Conc)
      ⟨initRing 1, none, WStatus.widle [], RStatus.rdone, [zeroV2]⟩ ∧
    (⟨initRing 1, none, WStatus.widle [], RStatus.rdone, [zeroV2]⟩ : Conc).rst
      = RStatus.rdone ∧
    ((⟨initRing 1, none, WStatus.widle [], RStatus.rdone,
          [zeroV2]⟩ : Conc).rlog = walkPoints (cinit (initRing 1) []).ring ∧
      (∃ k, k ≤ ([] : List (List Vector2)).length ∧
        (cinit (initRing 1) []).wst
          = WStatus.widle (([] : List (List Vector2)).drop k) ∧
        (cinit (initRing 1) []).ring = ringAfter (initRing 1) [] k) ∧
      (∀ c', CRun (⟨initRing 1, none, WStatus.widle [], RStatus.rdone,
            [zeroV2]⟩ : Conc) c' →
        c'.rlog = (⟨initRing 1, none, WStatus.widle [], RStatus.rdone,
            [zeroV2]⟩ : Conc).rlog)) := by
  have hacq : CStep (cinit (initRing 1) [])
      ⟨initRing 1, some Tid.reader, WStatus.widle [], RStatus.rcs 0, []⟩ :=
    CStep.acqR (initRing 1) (WStatus.widle []) []
  have hrun2 : CRun (⟨initRing 1, some Tid.reader, WStatus.widle [],
        RStatus.rcs 0, []⟩ : Conc)
      ⟨initRing 1, none, WStatus.widle [], RStatus.rdone, [zeroV2]⟩ := by
    refine CRun.step
      (CStep.readR (initRing 1) (some Tid.reader) (WStatus.widle []) 0 []
        (by decide)) ?_
    exact CRun.step
      (CStep.relR (initRing 1) (some Tid.reader) (WStatus.widle [])
        ([] ++ [wpt (initRing 1).vertexBuffer (initRing 1).cursor 0]))
      (CRun.refl _)
  exact ⟨CRun.refl _, hacq, rfl, rfl, hrun2, rfl,
    lock_atomic_snapshot (initRing 1) [] (CRun.refl _) hacq rfl rfl hrun2 rfl⟩

/-- C2: one snapshot walk yields exactly `N - 1` segments; it begins at the
slot pointed to by the cursor, walks forward with wraparound modulo `N`, and
the `i`-th segment (for `i` in `[1, N)`) connects slot `(c + i - 1) % N` to
slot `(c + i) % N`, both transformed per endpoint; being a pure function of
the state, each call produces the same fresh, independent pass. -/
theorem snapshot_walk_segments (drawOffset : Vector2) (drawScale : ℚ)
    (s : SampleRing) (h : s.cursor < s.vertexBuffer.length) :
    (DrawVertexBuffer drawOffset drawScale s).length = s.vertexBuffer.length - 1 ∧
    ∀ i, 1 ≤ i → i < s.vertexBuffer.length →
      (DrawVertexBuffer drawOffset drawScale s).getD (i - 1) zeroSeg =
        (transformPoint drawOffset drawScale
           (s.vertexBuffer.getD ((s.cursor + (i - 1)) % s.vertexBuffer.length) zeroV2),
         transformPoint drawOffset drawScale
           (s.vertexBuffer.getD ((s.cursor + i) % s.vertexBuffer.length) zeroV2)) := by
  rw [DrawVertexBuffer_eq_walk drawOffset drawScale s h]
  have hW : ((walkPoints s).map (transformPoint drawOffset drawScale)).length
      = s.vertexBuffer.length := by
    rw [List.length_map, walkPoints_length]
  constructor
  · rw [segsOfWalk_length, hW]
  · intro i h1 hiN
    have hseg : i - 1 < (segsOfWalk ((walkPoints s).map
        (transformPoint drawOffset drawScale))).length := by
      rw [segsOfWalk_length, hW]; omega
    rw [List.getD_eq_getElem _ _ hseg]
    have hlt : (i - 1) + 1 < ((walkPoints s).map
        (transformPoint drawOffset drawScale)).length := by
      rw [hW]; omega
    have hlt0 : i - 1 < ((walkPoints s).map
        (transformPoint drawOffset drawScale)).length := by
      rw [hW]; omega
    rw [segsOfWalk_getElem _ _ hseg hlt0 hlt]
    have hmap : ∀ (j : ℕ)
        (hj : j < ((walkPoints s).map (transformPoint drawOffset drawScale)).length),
        ((walkPoints s).map (transformPoint drawOffset drawScale))[j]
          = transformPoint drawOffset drawScale
              (s.vertexBuffer.getD ((s.cursor + j) % s.vertexBuffer.length) zeroV2) := by
      intro j hj
      rw [List.getElem_map]
      congr 1
      rw [walkPoints_getElem s j (by rw [walkPoints_length, ← hW]; exact hj)]
      rfl
    congr 1
    · exact hmap (i - 1) hlt0
    · have hx := hmap i (by rw [hW]; omega)
      convert hx using 2
      omega

/-- C2 witness: a concrete capacity-3 ring with cursor 1. -/
theorem snapshot_walk_segments_witness :
    (⟨[⟨1, 2⟩, ⟨3, 4⟩, ⟨5, 6⟩], 1⟩ : SampleRing).cursor
        < (⟨[⟨1, 2⟩, ⟨3, 4⟩, ⟨5, 6⟩], 1⟩ : SampleRing).vertexBuffer.length ∧
    ((DrawVertexBuffer ⟨7, 8⟩ 2 ⟨[⟨1, 2⟩, ⟨3, 4⟩, ⟨5, 6⟩], 1⟩).length
        = (⟨[⟨1, 2⟩, ⟨3, 4⟩, ⟨5, 6⟩], 1⟩ : SampleRing).vertexBuffer.length - 1 ∧
      ∀ i, 1 ≤ i → i < (⟨[⟨1, 2⟩, ⟨3, 4⟩, ⟨5, 6⟩], 1⟩ : SampleRing).vertexBuffer.length →
        (DrawVertexBuffer ⟨7, 8⟩ 2 ⟨[⟨1, 2⟩, ⟨3, 4⟩, ⟨5, 6⟩], 1⟩).getD (i - 1) zeroSeg =
          (transformPoint ⟨7, 8⟩ 2
             ((⟨[⟨1, 2⟩, ⟨3, 4⟩, ⟨5, 6⟩], 1⟩ : SampleRing).vertexBuffer.getD
               ((1 + (i - 1)) % 3) zeroV2),
           transformPoint ⟨7, 8⟩ 2
             ((⟨[⟨1, 2⟩, ⟨3, 4⟩, ⟨5, 6⟩], 1⟩ : SampleRing).vertexBuffer.getD
               ((1 + i) % 3) zeroV2))) :=
  ⟨by decide, snapshot_walk_segments ⟨7, 8⟩ 2 ⟨[⟨1, 2⟩, ⟨3, 4⟩, ⟨5, 6⟩], 1⟩ (by decide)⟩

/-- C3: `appendPoint` writes the point into slot `cursor`, leaves every other
slot unchanged, advances the cursor to `(cursor + 1) % N` which is again in
`[0, N)`, and (being a total function) never fails. -/
theorem append_point_spec (s : SampleRing) (p : Vector2)
    (h : s.cursor < s.vertexBuffer.length) :
    (appendPoint s p).vertexBuffer.getD s.cursor zeroV2 = p ∧
    (∀ j, j < s.vertexBuffer.length → j ≠ s.cursor →
      (appendPoint s p).vertexBuffer.getD j zeroV2 = s.vertexBuffer.getD j zeroV2) ∧
    (appendPoint s p).cursor = (s.cursor + 1) % s.vertexBuffer.length ∧
    (appendPoint s p).cursor < s.vertexBuffer.length ∧
    (appendPoint s p).vertexBuffer.length = s.vertexBuffer.length := by
  refine ⟨?_, ?_, rfl, ?_, appendPoint_length s p⟩
  · rw [List.getD_eq_getElem _ _ (by simpa [appendPoint] using h)]
    exact List.getElem_set_self (by simpa using h)
  · intro j hj hne
    rw [List.getD_eq_getElem _ _ (by simpa [appendPoint] using hj),
        List.getD_eq_getElem _ _ (by simpa using hj)]
    exact List.getElem_set_ne (fun hc => hne hc.symm) _
  · simp only [appendPoint]
    exact Nat.mod_lt _ (by omega)

/-- C3 witness: appending to a concrete capacity-2 ring. -/
theorem append_point_spec_witness :
    (⟨[⟨1, 1⟩, ⟨2, 2⟩], 1⟩ : SampleRing).cursor
        < (⟨[⟨1, 1⟩, ⟨2, 2⟩], 1⟩ : SampleRing).vertexBuffer.length ∧
    ((appendPoint ⟨[⟨1, 1⟩, ⟨2, 2⟩], 1⟩ ⟨9, 9⟩).vertexBuffer.getD 1 zeroV2 = ⟨9, 9⟩ ∧
      (∀ j, j < 2 → j ≠ 1 →
        (appendPoint ⟨[⟨1, 1⟩, ⟨2, 2⟩], 1⟩ ⟨9, 9⟩).vertexBuffer.getD j zeroV2 =
          (⟨[⟨1, 1⟩, ⟨2, 2⟩], 1⟩ : SampleRing).vertexBuffer.getD j zeroV2) ∧
      (appendPoint ⟨[⟨1, 1⟩, ⟨2, 2⟩], 1⟩ ⟨9, 9⟩).cursor = (1 + 1) % 2 ∧
      (appendPoint ⟨[⟨1, 1⟩, ⟨2, 2⟩], 1⟩ ⟨9, 9⟩).cursor < 2 ∧
      (appendPoint ⟨[⟨1, 1⟩, ⟨2, 2⟩], 1⟩ ⟨9, 9⟩).vertexBuffer.length = 2) :=
  ⟨by decide, append_point_spec ⟨[⟨1, 1⟩, ⟨2, 2⟩], 1⟩ ⟨9, 9⟩ (by decide)⟩

/-- C4: appending `k ≤ N` points to the zero-initialized ring and walking
once yields the `k` points in append order at the most recent positions,
preceded by `N - k` zero-initialized points (oldest first overall). -/
theorem ring_ordering (N : ℕ) (ps : List Vector2) (hN : 0 < N)
    (hk : ps.length ≤ N) :
    walkPoints (List.foldl appendPoint (initRing N) ps) =
      List.replicate (N - ps.length) zeroV2 ++ ps := by
  rw [walkPoints_foldl ps (initRing N) (initRing_cursor_lt N hN),
      walkPoints_initRing]
  rw [List.drop_append_of_le_length (by simpa using hk), List.drop_replicate]

/-- C4 witness: two points into a capacity-4 ring (the spec's single-batch
scenario). -/
theorem ring_ordering_witness :
    0 < 4 ∧ ([(⟨1/2, 1/2⟩ : Vector2), ⟨-1/2, -1/2⟩] : List Vector2).length ≤ 4 ∧
    walkPoints (List.foldl appendPoint (initRing 4) [⟨1/2, 1/2⟩, ⟨-1/2, -1/2⟩]) =
      List.replicate 2 zeroV2 ++ [⟨1/2, 1/2⟩, ⟨-1/2, -1/2⟩] :=
  ⟨by decide, by decide,
    ring_ordering 4 [⟨1/2, 1/2⟩, ⟨-1/2, -1/2⟩] (by decide) (by decide)⟩

/-- C5: appending `N + m` points (`0 < m < N`) to the zero-initialized ring
and walking once yields exactly the last `N` appended points oldest-first
(`ps.drop m`, with no repeats and no gaps); the spec's capacity-2 overwrite
scenario evicts the first point. -/
theorem wraparound_correctness (N m : ℕ) (ps : List Vector2) (hm : 0 < m)
    (hmN : m < N) (hlen : ps.length = N + m) :
    walkPoints (List.foldl appendPoint (initRing N) ps) = ps.drop m ∧
    walkPoints (List.foldl appendPoint (initRing 2)
        [⟨1, 0⟩, ⟨0, 1⟩, ⟨-1, 0⟩]) = [⟨0, 1⟩, ⟨-1, 0⟩] := by
  constructor
  · rw [walkPoints_foldl ps (initRing N) (initRing_cursor_lt N (by omega)),
        walkPoints_initRing, hlen]
    rw [← List.drop_drop m N]
    rw [List.drop_left' (by simp)]
  · decide

/-- C5 witness: the capacity-2 scenario itself (`N = 2`, `m = 1`). -/
theorem wraparound_correctness_witness :
    0 < 1 ∧ 1 < 2 ∧ ([(⟨1, 0⟩ : Vector2), ⟨0, 1⟩, ⟨-1, 0⟩] : List Vector2).length = 2 + 1 ∧
    walkPoints (List.foldl appendPoint (initRing 2) [⟨1, 0⟩, ⟨0, 1⟩, ⟨-1, 0⟩]) =
      ([⟨1, 0⟩, ⟨0, 1⟩, ⟨-1, 0⟩] : List Vector2).drop 1 :=
  ⟨by decide, by decide, by decide,
    (wraparound_correctness 2 1 [⟨1, 0⟩, ⟨0, 1⟩, ⟨-1, 0⟩] (by decide) (by decide)
      (by decide)).1⟩

/-- C6: one callback invocation performs exactly `frames` appends in order,
the `i`-th appended point being `(buffer[2i], buffer[2i+1])` (left to `x`,
right to `y`), and keeps no other state than the ring it was given. -/
theorem stream_ingest_appends (buffer : ℕ → ℚ) (frames : ℕ) (s : SampleRing) :
    callback buffer frames s = List.foldl appendPoint s (stereoFrames buffer frames) :=
  callback_eq_foldl buffer frames s

/-- C7: the per-endpoint pixel transform computes `point * scale + offset`
componentwise, and with `scale = 1`, `offset = (0,0)` it is exactly the
identity (samples are embedded as exact rationals, where scaling by one and
adding zero are exact). -/
theorem transform_identity (p drawOffset : Vector2) (drawScale : ℚ) :
    transformPoint drawOffset drawScale p =
      ⟨p.x * drawScale + drawOffset.x, p.y * drawScale + drawOffset.y⟩ ∧
    transformPoint ⟨0, 0⟩ 1 p = p := by
  refine ⟨rfl, ?_⟩
  simp [transformPoint, Vector2Add, Vector2Scale]

/-- C8: a draw tick mutates nothing: the ring (every slot and the cursor) is
exactly as before, and the emitted segments depend only on the ring and the
arguments, so an immediately repeated tick emits the same segments. -/
theorem draw_frame_pure (s : SampleRing) (drawOffset : Vector2) (drawScale : ℚ) :
    (drawFrame s drawOffset drawScale).1 = s ∧
    (∀ j, (drawFrame s drawOffset drawScale).1.vertexBuffer.getD j zeroV2 =
      s.vertexBuffer.getD j zeroV2) ∧
    (drawFrame s drawOffset drawScale).1.cursor = s.cursor ∧
    (drawFrame ((drawFrame s drawOffset drawScale).1) drawOffset drawScale).2 =
      (drawFrame s drawOffset drawScale).2 :=
  ⟨rfl, fun _ => rfl, rfl, rfl⟩

/-- C9: with no positional argument `main` exits at once with status 0 and no
effect at all; when the stream fails to load it closes the audio device it
had acquired and exits with status 0; in neither case is a window opened or
a message printed. -/
theorem startup_exit_behavior (argc : ℕ) (loadOk : Bool) :
    (argc < 2 → mainStartup argc loadOk = ([], some 0)) ∧
    (2 ≤ argc → loadOk = false →
      mainStartup argc loadOk = ([Ev.initAudioDevice, Ev.closeAudioDevice], some 0)) ∧
    (∀ e ∈ (mainStartup argc loadOk).1,
      e ≠ Ev.initWindow ∧ ∀ msg, e ≠ Ev.printMessage msg) := by
  refine ⟨?_, ?_, ?_⟩
  · intro h
    simp [mainStartup, h]
  · intro h hl
    simp [mainStartup, Nat.not_lt.mpr h, hl]
  · intro e he
    rcases Nat.lt_or_ge argc 2 with h2 | h2
    · simp [mainStartup, h2] at he
    · rcases Bool.eq_false_or_eq_true loadOk with hl | hl <;>
        · simp [mainStartup, Nat.not_lt.mpr h2, hl] at he
          first
          | (rcases he with he | he <;> simp [he])
          | simp [he]

/-- C10 counterexample: the claim fails as stated — with zero frames ingested
(a cold start, an admissible "sequence of stereo frames") the two variants
draw different segments: the older variant draws the pristine zero slots at
pixel `(0, 0)` while the current variant draws them at the window center
`(512, 512)`. -/
theorem variants_differ_cold_start :
    DrawVertexBufferOld (ingestOld [] (initRing VERTEX_BUFFER_SIZE)) ≠
      drawNewDefault (ingest [] (initRing VERTEX_BUFFER_SIZE)) := by
  intro heq
  have hN : 0 < VERTEX_BUFFER_SIZE := by norm_num [VERTEX_BUFFER_SIZE]
  have hcin := initRing_cursor_lt VERTEX_BUFFER_SIZE hN
  have h1 : DrawVertexBufferOld (ingestOld [] (initRing VERTEX_BUFFER_SIZE))
      = segsOfWalk (List.replicate VERTEX_BUFFER_SIZE zeroV2) := by
    show DrawVertexBufferOld (initRing VERTEX_BUFFER_SIZE) = _
    rw [DrawVertexBufferOld_eq_walk _ hcin, walkPoints_initRing]
  have h2 : drawNewDefault (ingest [] (initRing VERTEX_BUFFER_SIZE))
      = segsOfWalk (List.replicate VERTEX_BUFFER_SIZE
          (transformPoint
            ⟨((WINDOW_WIDTH / 2 : ℕ) : ℚ), ((WINDOW_HEIGHT / 2 : ℕ) : ℚ)⟩
            ((WINDOW_HEIGHT / 2 : ℕ) : ℚ) zeroV2)) := by
    show drawNewDefault (initRing VERTEX_BUFFER_SIZE) = _
    rw [drawNewDefault, DrawVertexBuffer_eq_walk _ _ _ hcin,
        walkPoints_initRing, List.map_replicate]
  rw [h1, h2] at heq
  have hfirst : ∀ a : Vector2,
      (segsOfWalk (List.replicate VERTEX_BUFFER_SIZE a)).getD 0 zeroSeg = (a, a) := by
    intro a
    have hlen : 0 + 1 < (List.replicate VERTEX_BUFFER_SIZE a).length := by
      rw [List.length_replicate]
      norm_num [VERTEX_BUFFER_SIZE]
    have hs : 0 < (segsOfWalk (List.replicate VERTEX_BUFFER_SIZE a)).length := by
      rw [segsOfWalk_length, List.length_replicate]
      norm_num [VERTEX_BUFFER_SIZE]
    rw [List.getD_eq_getElem _ _ hs]
    rw [segsOfWalk_getElem _ 0 hs (by omega) hlen]
    simp
  have hget := congrArg (fun l => l.getD 0 zeroSeg) heq
  dsimp only at hget
  rw [hfirst, hfirst] at hget
  have hx := congrArg (fun q => q.1.x) hget
  dsimp only at hx
  norm_num [zeroV2, transformPoint, Vector2Add, Vector2Scale, WINDOW_WIDTH,
    WINDOW_HEIGHT] at hx

/-- C10 (amended): the two source variants draw the same polyline once every
slot has been overwritten, i.e. after at least `VERTEX_BUFFER_SIZE = 2048`
frames have been ingested: for every batch sequence totalling at least that
many frames, the older variant's draw of its stored pixel points equals the
current variant's draw of its stored raw samples at the default 1024 x 1024
window (`drawOffset = (512, 512)`, `drawScale = 512`). Before the buffer has
filled once, the never-written slots differ as in the counterexample. -/
theorem variants_equiv_after_fill (batches : List Batch)
    (h : VERTEX_BUFFER_SIZE ≤ totalFrames batches) :
    DrawVertexBufferOld (ingestOld batches (initRing VERTEX_BUFFER_SIZE)) =
      drawNewDefault (ingest batches (initRing VERTEX_BUFFER_SIZE)) := by
  have hN : 0 < VERTEX_BUFFER_SIZE := by norm_num [VERTEX_BUFFER_SIZE]
  have hcin := initRing_cursor_lt VERTEX_BUFFER_SIZE hN
  rw [ingestOld_eq_foldl, ingest_eq_foldl, drawNewDefault]
  have hL : VERTEX_BUFFER_SIZE ≤ (allFrames batches).length := by
    rw [allFrames_length]
    exact h
  have hc1 := foldl_appendPoint_cursor_lt ((allFrames batches).map oldStoreTf)
    (initRing VERTEX_BUFFER_SIZE) hcin
  have hc2 := foldl_appendPoint_cursor_lt (allFrames batches)
    (initRing VERTEX_BUFFER_SIZE) hcin
  rw [DrawVertexBufferOld_eq_walk _ hc1, DrawVertexBuffer_eq_walk _ _ _ hc2]
  congr 1
  rw [walkPoints_foldl _ _ hcin, walkPoints_foldl _ _ hcin, walkPoints_initRing]
  have key : ∀ Q : List Vector2, Q.length = (allFrames batches).length →
      (List.replicate VERTEX_BUFFER_SIZE zeroV2 ++ Q).drop Q.length
        = Q.drop ((allFrames batches).length - VERTEX_BUFFER_SIZE) := by
    intro Q hQ
    have hsplit : Q.length = VERTEX_BUFFER_SIZE
        + ((allFrames batches).length - VERTEX_BUFFER_SIZE) := by omega
    rw [hsplit, ← List.drop_drop, List.drop_left' (by simp)]
  rw [List.length_map]
  have h1 := key ((allFrames batches).map oldStoreTf) (List.length_map ..)
  rw [List.length_map] at h1
  rw [h1, key (allFrames batches) rfl, ← List.map_drop]
  apply List.map_congr_left
  intro v hv
  exact oldStoreTf_eq_transform v

/-- C10 (amended) witness: one batch of 2048 silent frames fills the ring. -/
theorem variants_equiv_after_fill_witness :
    VERTEX_BUFFER_SIZE ≤ totalFrames [((fun _ => (0 : ℚ)), 2048)] ∧
    DrawVertexBufferOld
        (ingestOld [((fun _ => (0 : ℚ)), 2048)] (initRing VERTEX_BUFFER_SIZE)) =
      drawNewDefault
        (ingest [((fun _ => (0 : ℚ)), 2048)] (initRing VERTEX_BUFFER_SIZE)) :=
  ⟨by decide, variants_equiv_after_fill [((fun _ => (0 : ℚ)), 2048)] (by decide)⟩

/-- C9 witness: the two early-exit paths at concrete inputs. -/
theorem startup_exit_behavior_witness :
    (1 < 2 ∧ mainStartup 1 true = ([], some 0)) ∧
    (2 ≤ 2 ∧ mainStartup 2 false = ([Ev.initAudioDevice, Ev.closeAudioDevice], some 0)) :=
  ⟨⟨by decide, (startup_exit_behavior 1 true).1 (by decide)⟩,
   ⟨by decide, (startup_exit_behavior 2 false).2.1 (by decide) rfl⟩⟩

end Vectorscope
